import Mathlib

/-!
Shallow embedding of the OneUp puzzle solver (src/grid/position.py,
src/grid/grid.py, src/oneup/game.py, src/oneup/actions.py,
src/oneup/solver/actions.py, src/oneup/solver/solver.py,
src/oneup/solver/strategy.py, src/oneup/solver/types.py).

Modelling conventions:
* Python ints are `Int`; the numpy int8 grid stores small puzzle values, so
  cells are modelled as `Int` (int8 narrowing never matters at puzzle scale).
* Python `set` / `dict` values are `Finset` / functions; `defaultdict(set)`
  is a total function whose default is `∅`.  Where Python iterates over a set
  with implementation-defined (but stable) order, the model iterates in
  sorted order, one fixed stable enumeration order.
* Code that can raise an exception is `Option`-valued (`none` = the call
  raises); mutation is explicit state passing.
* Recursive procedures are written with an explicit fuel argument whose
  initial value provably dominates the recursion depth of the Python code,
  so every definition is structurally recursive and kernel-evaluable.
-/

/-- `Position` from src/grid/position.py: an integer (row, col) pair. -/
structure Position where
  row : Int
  col : Int
deriving DecidableEq

/-- Python tuple comparison `(row, col) < (row, col)`: lexicographic order,
used by `sorted` on positions (Wall canonicalization, stable enumeration). -/
instance : LinearOrder Position :=
  LinearOrder.lift' (fun p => toLex (p.row, p.col)) (fun a b h => by
    cases a; cases b
    simpa [Position.mk.injEq] using toLex.injective h)

/-- The four unit directions of src/grid/position.py. -/
inductive Direction where
  | UP | DOWN | LEFT | RIGHT
deriving DecidableEq

/-- `Direction.value`: the (row, col) offset of each direction. -/
def Direction.delta : Direction → Position
  | .UP => ⟨-1, 0⟩
  | .DOWN => ⟨1, 0⟩
  | .LEFT => ⟨0, -1⟩
  | .RIGHT => ⟨0, 1⟩

/-- `opposite_direction` from src/grid/position.py. -/
def opposite_direction : Direction → Direction
  | .UP => .DOWN
  | .DOWN => .UP
  | .LEFT => .RIGHT
  | .RIGHT => .LEFT

/-- `Position.add`. -/
def Position.add (p q : Position) : Position := ⟨p.row + q.row, p.col + q.col⟩

/-- `Position.neighbour`: one step in a direction. -/
def Position.neighbour (p : Position) (d : Direction) : Position := p.add d.delta

/-- `Alignment` from src/grid/position.py (named `PosAlignment` here because
Mathlib already declares an `Alignment`). -/
inductive PosAlignment where
  | HORIZONTAL | VERTICAL | NONE
deriving DecidableEq

/-- `Position.alignment`: rows equal is horizontal, else columns equal is
vertical, else none. -/
def Position.alignment (p q : Position) : PosAlignment :=
  if p.row = q.row then .HORIZONTAL
  else if p.col = q.col then .VERTICAL
  else .NONE

/-- Enumerate a finite set in ascending order (insertion sort of any
underlying list; well defined because sorting identifies permutations). -/
def finset_sorted {α : Type} [LinearOrder α] (s : Finset α) : List α :=
  Quot.liftOn s.val (fun l => l.insertionSort (· ≤ ·)) (fun a b h =>
    List.eq_of_perm_of_sorted
      (((List.perm_insertionSort (· ≤ ·) a).trans h).trans
        (List.perm_insertionSort (· ≤ ·) b).symm)
      (List.sorted_insertionSort (· ≤ ·) a)
      (List.sorted_insertionSort (· ≤ ·) b))

/-- Membership in the sorted enumeration is membership in the set. -/
theorem mem_finset_sorted {α : Type} [LinearOrder α] (s : Finset α) (a : α) :
    a ∈ finset_sorted s ↔ a ∈ s := by
  rcases s with ⟨m, hm⟩
  induction m using Quot.inductionOn with
  | h l =>
    simpa [finset_sorted, Finset.mem_mk, Multiset.mem_coe] using
      (List.perm_insertionSort (α := α) (· ≤ ·) l).mem_iff

/-- The sorted enumeration has as many entries as the set has elements. -/
theorem length_finset_sorted {α : Type} [LinearOrder α] (s : Finset α) :
    (finset_sorted s).length = s.card := by
  rcases s with ⟨m, hm⟩
  induction m using Quot.inductionOn with
  | h l =>
    simpa [finset_sorted, Finset.card_mk] using
      (List.perm_insertionSort (α := α) (· ≤ ·) l).length_eq

/-- Fixed stable enumeration order for a Python set of positions: the model
iterates sets in sorted order (Python's set order is implementation-defined
but stable; only a fixed order matters for the modelled behaviour). -/
def sorted_list (s : Finset Position) : List Position := finset_sorted s

/-- Fixed stable enumeration order for a Python set of ints. -/
def sorted_values (s : Finset Int) : List Int := finset_sorted s

/-- `Grid` from src/grid/grid.py: a square int array.  `data` is the backing
storage addressed by resolved (non-negative, in-range) indices. -/
structure Grid where
  grid_size : Nat
  data : Nat → Nat → Int

/-- `Grid.is_in_bounds`: `0 <= row < size` and `0 <= col < size`. -/
def Grid.is_in_bounds (g : Grid) (p : Position) : Bool :=
  decide (0 ≤ p.row ∧ p.row < g.grid_size ∧ 0 ≤ p.col ∧ p.col < g.grid_size)

/-- Numpy index resolution along one axis of length `n`: an index in
`[0, n)` is used as is, an index in `[-n, 0)` wraps to `i + n`, anything
else raises `IndexError` (`none`). -/
def np_index (n : Nat) (i : Int) : Option Nat :=
  if 0 ≤ i ∧ i < n then some i.toNat
  else if -(n : Int) ≤ i ∧ i < 0 then some (i + n).toNat
  else none

/-- `Grid.get_position`: `self.data[position.as_tuple()]` with numpy index
semantics; `none` models the `IndexError` raised on an unresolvable index.
There is no bounds check in the source. -/
def Grid.get_position (g : Grid) (p : Position) : Option Int := do
  let r ← np_index g.grid_size p.row
  let c ← np_index g.grid_size p.col
  pure (g.data r c)

/-- `Grid.set_position`: bounds-checked write returning the success flag;
an out-of-bounds write leaves the grid untouched and returns `false`. -/
def Grid.set_position (g : Grid) (p : Position) (v : Int) : Grid × Bool :=
  if g.is_in_bounds p then
    ({ g with data := fun r c =>
        if r = p.row.toNat ∧ c = p.col.toNat then v else g.data r c }, true)
  else (g, false)

/-- `Grid.all_positions`: row-major enumeration of the whole grid. -/
def Grid.all_positions (g : Grid) : List Position :=
  (List.range g.grid_size).flatMap fun r =>
    (List.range g.grid_size).map fun c => ⟨(r : Int), (c : Int)⟩

/-- One step of the `while self.is_in_bounds(position)` walk of
`Grid.positions_in_direction`.  The fuel `grid_size + 1` dominates the walk
length: once a position is in bounds, walking a unit direction leaves the
bounds after at most `grid_size` further steps. -/
def Grid.walk (g : Grid) (d : Direction) : Nat → Position → List Position
  | 0, _ => []
  | fuel + 1, p =>
    if g.is_in_bounds p then p :: g.walk d fuel (p.neighbour d) else []

/-- `Grid.positions_in_direction`: all in-bounds positions strictly beyond
`origin` in direction `d`, in walking order. -/
def Grid.positions_in_direction (g : Grid) (origin : Position) (d : Direction) :
    List Position :=
  g.walk d (g.grid_size + 1) (origin.neighbour d)

/-- `Wall` from src/oneup/game.py: a pair of positions canonicalized as a
sorted pair, so the same wall is found from either side. -/
structure Wall where
  bounds : Position × Position
deriving DecidableEq

/-- `Wall.from_positions` on distinct adjacent positions: the sorted pair.
(The `ValueError` branches for equal / non-adjacent positions are never
reached by the visibility code, which always passes unit neighbours.) -/
def mk_wall (a b : Position) : Wall :=
  if a ≤ b then ⟨(a, b)⟩ else ⟨(b, a)⟩

/-- `OneUp` puzzle state from src/oneup/game.py. -/
structure OneUp where
  grid : Grid
  walls : Finset Wall
  blocked_positions : Finset Position
  fixed_positions : Finset Position

/-- `OneUp.free_positions`: row-major positions that are not blocked. -/
def OneUp.free_positions (game : OneUp) : List Position :=
  game.grid.all_positions.filter (fun p => p ∉ game.blocked_positions)

/-- `OneUp.__post_init__`: construct a puzzle, recording every free position
that already holds a positive value as fixed. -/
def mk_one_up (grid : Grid) (walls : Finset Wall)
    (blocked : Finset Position) : OneUp :=
  let base : OneUp :=
    { grid := grid, walls := walls, blocked_positions := blocked,
      fixed_positions := ∅ }
  { base with fixed_positions :=
      (base.free_positions.filter
        (fun p => 0 < (grid.get_position p).getD 0)).toFinset }

/-- The loop body of `OneUp._find_visible_positions_in_direction`: walk the
in-bounds run, stopping (exclusive) at the first blocked cell or the first
wall crossed between a cell and its predecessor. -/
def OneUp.collect_run (game : OneUp) (d : Direction) :
    List Position → Finset Position
  | [] => ∅
  | p :: rest =>
    if p ∈ game.blocked_positions then ∅
    else if mk_wall (p.neighbour (opposite_direction d)) p ∈ game.walls then ∅
    else insert p (game.collect_run d rest)

/-- `OneUp._find_visible_positions_in_direction`: empty for a blocked
origin, otherwise the origin plus the unobstructed run beyond it. -/
def OneUp.find_visible (game : OneUp) (origin : Position) (d : Direction) :
    Finset Position :=
  if origin ∈ game.blocked_positions then ∅
  else insert origin
    (game.collect_run d (game.grid.positions_in_direction origin d))

/-- `OneUp._find_vertical_group`. -/
def OneUp.find_vertical_group (game : OneUp) (p : Position) : Finset Position :=
  game.find_visible p .UP ∪ game.find_visible p .DOWN

/-- `OneUp._find_horizontal_group`. -/
def OneUp.find_horizontal_group (game : OneUp) (p : Position) : Finset Position :=
  game.find_visible p .LEFT ∪ game.find_visible p .RIGHT

/-- The shared seen-loop of `OneUp.horizontal_vision` / `vertical_vision`:
for each not-yet-seen free position take its group, mark the whole group
seen, and for every ordered pair `(p1, p2)` of group members add `p2` to
`result[p1]` and `p1` to `result[p2]` — i.e. extend `result[p]` by the whole
group for every member `p`. -/
def build_vision (grp : Position → Finset Position) :
    List Position → Finset Position × (Position → Finset Position) →
      Finset Position × (Position → Finset Position)
  | [], acc => acc
  | p :: rest, acc =>
    if p ∈ acc.1 then build_vision grp rest acc
    else
      build_vision grp rest
        (acc.1 ∪ grp p,
         fun q => if q ∈ grp p then acc.2 q ∪ grp p else acc.2 q)

/-- `OneUp.horizontal_vision` as a total function (`defaultdict(set)`). -/
def OneUp.horizontal_vision (game : OneUp) : Position → Finset Position :=
  (build_vision game.find_horizontal_group game.free_positions
    (∅, fun _ => ∅)).2

/-- `OneUp.vertical_vision` as a total function (`defaultdict(set)`). -/
def OneUp.vertical_vision (game : OneUp) : Position → Finset Position :=
  (build_vision game.find_vertical_group game.free_positions
    (∅, fun _ => ∅)).2

/-- `OneUp.vision`: union of the vertical and horizontal visions.  The
Python dict is keyed by the free positions; the claims only consult it
there. -/
def OneUp.vision (game : OneUp) (p : Position) : Finset Position :=
  game.vertical_vision p ∪ game.horizontal_vision p

/-- `OneUp.max_allowed_value`. -/
def OneUp.max_allowed_value (game : OneUp) (p : Position) : Nat :=
  min (game.horizontal_vision p).card (game.vertical_vision p).card

/-- The key set of `OneUp.other_visible_positions`: every position visible
from `p` except `p` itself. -/
def OneUp.other_visible (game : OneUp) (p : Position) : Finset Position :=
  (game.vision p).erase p

/-- `OneUp.all_vision_groups`: for each free position in order, yield its
vertical group if unseen, then its horizontal group if unseen. -/
def OneUp.all_vision_groups (game : OneUp) : List (Finset Position) :=
  (game.free_positions.foldl
    (fun acc p =>
      let acc1 :=
        if p ∈ acc.1 then acc
        else (acc.1 ∪ game.find_vertical_group p, acc.2.1,
              acc.2.2 ++ [game.find_vertical_group p])
      if p ∈ acc1.2.1 then acc1
      else (acc1.1, acc1.2.1 ∪ game.find_horizontal_group p,
            acc1.2.2 ++ [game.find_horizontal_group p]))
    ((∅ : Finset Position), (∅ : Finset Position), ([] : List (Finset Position)))).2.2

/-- `OneUp.is_complete`: every non-blocked cell is filled with a value not
exceeding its cap and not repeated in its vision. -/
def OneUp.is_complete (game : OneUp) : Bool :=
  game.grid.all_positions.all fun p =>
    if p ∈ game.blocked_positions then true
    else
      let value := (game.grid.get_position p).getD 0
      if value = 0 then false
      else if (game.max_allowed_value p : Int) < value then false
      else (sorted_list (game.other_visible p)).all
        (fun q => !((game.grid.get_position q).getD 0 == value))

/-- `SolverState` from src/oneup/solver/types.py. -/
inductive SolverState where
  | SOLVING | COMPLETE | HALTED
deriving DecidableEq

/-- The mutable data of `OneUpSolver` (src/oneup/solver/solver.py): the game,
the per-position candidate domains and hints (both `defaultdict(set)`,
modelled as total functions with default `∅`), and the solver state.  The
action queue is modelled alongside, not inside, the solver, since the queue
operations take the solver as their data argument. -/
structure Solver where
  game : OneUp
  possible_values : Position → Finset Int
  hints : Position → Finset Int
  state : SolverState

/-- The action variants of src/oneup/solver/actions.py. -/
inductive SolverAction where
  | add_hint (p : Position) (v : Int)
  | remove_hint (p : Position) (v : Int)
  | add_possible_value (p : Position) (v : Int)
  | remove_possible_value (p : Position) (v : Int)
  | set_possible_values (p : Position) (vs : Finset Int)
  | propagate_value (p : Position)
  | set_position (p : Position) (v : Int)
deriving DecidableEq

/-- The undo closures of src/oneup/solver/actions.py, as first-class data:
each closure captures the pre-mutation values it needs by value.  `noop`
models both a `None` undo field and a closure guarded by a false success
flag. -/
inductive UndoPayload where
  | noop
  | hint_erase (p : Position) (v : Int)
  | hint_insert (p : Position) (v : Int)
  | pv_erase (p : Position) (v : Int)
  | pv_insert (p : Position) (v : Int)
  | pv_set (p : Position) (vs : Finset Int)
  | pv_insert_all (ps : Finset Position) (v : Int)
  | grid_set (p : Position) (v : Int)
deriving DecidableEq

/-- `ActionResult` (src/oneup/actions.py) without the diagnostic summary
string, which no behaviour depends on.  The `next_actions` list is a pure
function of the action and success flag (see `cascade`), so it is not
duplicated here. -/
structure ActionResult where
  succeeded : Bool
  undo : UndoPayload
deriving DecidableEq

/-- The cascade (`next_actions`) each action returns on success:
`SetPosition` cascades into `SetPossibleValues` then `PropagateValue`;
every other action (and every failed action) cascades into nothing. -/
def cascade : SolverAction → List SolverAction
  | .set_position p v => [.set_possible_values p {v}, .propagate_value p]
  | _ => []

/-- Run an undo closure. -/
def apply_undo : UndoPayload → Solver → Solver
  | .noop, s => s
  | .hint_erase p v, s =>
    { s with hints := Function.update s.hints p ((s.hints p).erase v) }
  | .hint_insert p v, s =>
    { s with hints := Function.update s.hints p (insert v (s.hints p)) }
  | .pv_erase p v, s =>
    { s with possible_values :=
        Function.update s.possible_values p ((s.possible_values p).erase v) }
  | .pv_insert p v, s =>
    { s with possible_values :=
        Function.update s.possible_values p (insert v (s.possible_values p)) }
  | .pv_set p vs, s =>
    { s with possible_values := Function.update s.possible_values p vs }
  | .pv_insert_all ps v, s =>
    { s with possible_values := fun q =>
        if q ∈ ps then insert v (s.possible_values q) else s.possible_values q }
  | .grid_set p v, s =>
    { s with game := { s.game with grid := (s.game.grid.set_position p v).1 } }

/-- `Action.perform` for each variant (src/oneup/solver/actions.py).
`none` models an uncaught exception: `set.remove` on an absent hint value
(`KeyError`), a grid read outside numpy's resolvable range (`IndexError`),
or `vision[p]` for a non-free `p` (`KeyError`). -/
def perform (a : SolverAction) (s : Solver) : Option (ActionResult × Solver) :=
  match a with
  | .add_hint p v =>
    if v ∈ s.hints p then
      some ({ succeeded := false, undo := .noop },
        { s with hints := Function.update s.hints p (insert v (s.hints p)) })
    else
      some ({ succeeded := true, undo := .hint_erase p v },
        { s with hints := Function.update s.hints p (insert v (s.hints p)) })
  | .remove_hint p v =>
    if v ∈ s.hints p then
      some ({ succeeded := true, undo := .hint_insert p v },
        { s with hints := Function.update s.hints p ((s.hints p).erase v) })
    else none
  | .add_possible_value p v =>
    if v ∈ s.possible_values p then
      some ({ succeeded := false, undo := .noop },
        { s with possible_values :=
            Function.update s.possible_values p (insert v (s.possible_values p)) })
    else
      some ({ succeeded := true, undo := .pv_erase p v },
        { s with possible_values :=
            Function.update s.possible_values p (insert v (s.possible_values p)) })
  | .remove_possible_value p v =>
    if v ∈ s.possible_values p then
      some ({ succeeded := true, undo := .pv_insert p v },
        { s with possible_values :=
            Function.update s.possible_values p ((s.possible_values p).erase v) })
    else some ({ succeeded := false, undo := .noop }, s)
  | .set_possible_values p vs =>
    some ({ succeeded := true, undo := .pv_set p (s.possible_values p) },
      { s with possible_values := Function.update s.possible_values p vs })
  | .propagate_value p =>
    match s.game.grid.get_position p with
    | none => none
    | some value =>
      if value = 0 then some ({ succeeded := false, undo := .noop }, s)
      else if p ∈ s.game.free_positions then
        let changed := (s.game.other_visible p).filter
          (fun q => value ∈ s.possible_values q)
        some ({ succeeded := true, undo := .pv_insert_all changed value },
          { s with possible_values := fun q =>
              if q ∈ changed then (s.possible_values q).erase value
              else s.possible_values q })
      else none
  | .set_position p v =>
    match s.game.grid.get_position p with
    | none => none
    | some current =>
      if current = v then some ({ succeeded := false, undo := .noop }, s)
      else
        some ({ succeeded := true, undo := .grid_set p current },
          { s with game :=
              { s.game with grid := (s.game.grid.set_position p v).1 } })

/-- `ActionQueue` from src/oneup/actions.py. -/
structure ActionQueue where
  actions : List SolverAction
  action_results : List ActionResult
  action_index : Nat
  save_points : List Nat
deriving DecidableEq

/-- The empty queue a fresh solver starts with. -/
def empty_queue : ActionQueue := ⟨[], [], 0, []⟩

/-- `ActionQueue.is_current`. -/
def ActionQueue.is_current (q : ActionQueue) : Bool :=
  q.action_index == q.actions.length

/-- `ActionQueue._drop_future`: truncate actions and results at the cursor
and drop save points beyond it. -/
def ActionQueue.drop_future (q : ActionQueue) : ActionQueue :=
  { actions := q.actions.take q.action_index,
    action_results := q.action_results.take q.action_index,
    action_index := q.action_index,
    save_points := q.save_points.filter (fun t => t ≤ q.action_index) }

/-- Python `max` over a list (`None` on an empty list). -/
def list_max : List Nat → Option Nat
  | [] => none
  | x :: xs => some (xs.foldl max x)

/-- Python `min` over a list (`None` on an empty list). -/
def list_min : List Nat → Option Nat
  | [] => none
  | x :: xs => some (xs.foldl min x)

/-- `ActionQueue.previous_savepoint`. -/
def ActionQueue.previous_savepoint (q : ActionQueue) : Option Nat :=
  list_max (q.save_points.filter (fun t => t < q.action_index))

/-- `ActionQueue.next_savepoint`. -/
def ActionQueue.next_savepoint (q : ActionQueue) : Option Nat :=
  list_min (q.save_points.filter (fun t => q.action_index < t))

/-- The depth-first action stack loop of `ActionQueue.perform_actions`:
pop the top action, perform it; on success log it and push its cascade
(the Python code pushes the cascade list onto the stack end, so it pops in
reverse of its given order); on failure skip it.  `none` models an
exception escaping from a `perform`.  The fuel dominates the number of
iterations (see `stack_weight`). -/
def run_stack : Nat → List SolverAction → ActionQueue → Solver →
    Option (ActionQueue × Solver)
  | 0, _, _, _ => none
  | _ + 1, [], q, s => some (q, s)
  | fuel + 1, a :: rest, q, s =>
    match perform a s with
    | none => none
    | some (r, s1) =>
      if r.succeeded then
        run_stack fuel ((cascade a).reverse ++ rest)
          { q with actions := q.actions ++ [a],
                   action_results := q.action_results ++ [r],
                   action_index := q.action_index + 1 } s1
      else run_stack fuel rest q s1

/-- Loop-iteration budget for `run_stack`: each `SetPosition` costs its own
iteration plus at most the two cascade iterations it can enqueue, every
other action costs one iteration. -/
def stack_weight (l : List SolverAction) : Nat :=
  (l.map fun a => match a with | .set_position _ _ => 3 | _ => 1).sum

/-- The `if not self.is_current(): self._drop_future()` statement at the
head of `perform_actions`. -/
def ActionQueue.normalized (q : ActionQueue) : ActionQueue :=
  if q.is_current then q else q.drop_future

/-- The `if not self._is_at_savepoint(): self._create_savepoint()` statement
of `perform_actions`: record `len(action_results)` as a save point when the
cursor is not already one. -/
def ActionQueue.with_savepoint (q : ActionQueue) : ActionQueue :=
  if q.action_index ∈ q.save_points then q
  else { q with save_points := q.save_points ++ [q.action_results.length] }

/-- `ActionQueue.perform_actions`: early return on an empty batch, else drop
the future when the cursor is behind, record a save point at the cursor if
absent, and run the stack loop. -/
def ActionQueue.perform_actions (q : ActionQueue) (batch : List SolverAction)
    (s : Solver) : Option (ActionQueue × Solver) :=
  if batch = [] then some (q, s)
  else run_stack (stack_weight batch + 1) batch q.normalized.with_savepoint s

/-- The redo half of `ActionQueue._move_to_index`: re-perform the recorded
actions in forward order, discarding the fresh results (cascades are not
re-expanded).  `none` models an exception escaping from a `perform`. -/
def redo_run : List SolverAction → Solver → Option Solver
  | [], s => some s
  | a :: rest, s =>
    match perform a s with
    | none => none
    | some (_, s1) => redo_run rest s1

/-- The slice `action_results[t : action_index]` of recorded results that a
downward move undoes. -/
def ActionQueue.results_back_to (q : ActionQueue) (t : Nat) : List ActionResult :=
  (q.action_results.take q.action_index).drop t

/-- The slice `actions[action_index : t]` of recorded actions that an upward
move re-performs. -/
def ActionQueue.actions_up_to (q : ActionQueue) (t : Nat) : List SolverAction :=
  (q.actions.take t).drop q.action_index

/-- `ActionQueue._move_to_index`: clamp the target, then either undo the
recorded results back to it in reverse order (decrementing the cursor per
result) or re-perform the recorded actions forward to it (incrementing the
cursor per action). -/
def ActionQueue.move_to_index (q : ActionQueue) (target : Nat) (s : Solver) :
    Option (ActionQueue × Solver) :=
  if q.action_index = min q.actions.length target then some (q, s)
  else if min q.actions.length target < q.action_index then
    some ({ q with action_index :=
        q.action_index - (q.results_back_to (min q.actions.length target)).length },
      (q.results_back_to (min q.actions.length target)).reverse.foldl
        (fun s r => apply_undo r.undo s) s)
  else
    match redo_run (q.actions_up_to (min q.actions.length target)) s with
    | none => none
    | some s1 =>
      some ({ q with action_index :=
          q.action_index + (q.actions_up_to (min q.actions.length target)).length }, s1)

/-- `ActionQueue.undo`: move to the nearest earlier save point, if any. -/
def ActionQueue.undo (q : ActionQueue) (s : Solver) :
    Option (ActionQueue × Solver) :=
  match q.previous_savepoint with
  | none => some (q, s)
  | some sp => q.move_to_index sp s

/-- `ActionQueue.redo`: move to the nearest later save point, defaulting to
the log end.  (`next_savepoint` never returns `0`, so Python's falsy `or`
default coincides with `getD`.) -/
def ActionQueue.redo (q : ActionQueue) (s : Solver) :
    Option (ActionQueue × Solver) :=
  if q.next_savepoint.getD q.actions.length = q.action_index then some (q, s)
  else q.move_to_index (q.next_savepoint.getD q.actions.length) s

/-- `ActionQueue.fast_forward`. -/
def ActionQueue.fast_forward (q : ActionQueue) (s : Solver) :
    Option (ActionQueue × Solver) :=
  q.move_to_index q.actions.length s

/-- `OneUpSolver.initialize_possible_values`: for every free position seed
`{value}` if filled, else `{1 .. max_allowed}`, then subtract the values
currently on other visible positions.  Free positions are in bounds, so the
grid read always succeeds (`getD 0` is never taken). -/
def initial_possible_values (game : OneUp) : Position → Finset Int :=
  game.free_positions.foldl
    (fun pv p =>
      let value := (game.grid.get_position p).getD 0
      let base : Finset Int :=
        if value ≠ 0 then {value}
        else (Finset.range (game.max_allowed_value p)).image
          (fun k : Nat => (k : Int) + 1)
      let blocked := (game.other_visible p).image
        (fun q => (game.grid.get_position q).getD 0)
      Function.update pv p (base \ blocked))
    (fun _ => ∅)

/-- `OneUpSolver.reset` / construction: seeded domains, empty hints,
`SOLVING` state (the queue is created empty alongside, see `empty_queue`). -/
def mk_solver (game : OneUp) : Solver :=
  { game := game, possible_values := initial_possible_values game,
    hints := fun _ => ∅, state := .SOLVING }

/-- `OneUpSolver._non_fixed_positions`: free positions whose grid value is
zero (positions read in the solving loop are free, hence in bounds). -/
def non_fixed_positions (s : Solver) : List Position :=
  s.game.free_positions.filter (fun p => s.game.grid.get_position p = some 0)

/-- `OneUpSolver.entropy`: domain size minus one. -/
def entropy (s : Solver) (p : Position) : Int :=
  ((s.possible_values p).card : Int) - 1

/-- The root of the heapified `(entropy, i, position)` list that
`find_easy_collapse` pops: the minimum under lexicographic tuple order
(the enumeration indices `i` are distinct, so the position is never
compared). -/
def heap_min : List (Int × Nat × Position) → Option (Int × Nat × Position)
  | [] => none
  | x :: xs =>
    some (xs.foldl (fun a b =>
      if b.1 < a.1 ∨ (b.1 = a.1 ∧ b.2.1 < a.2.1) then b else a) x)

/-- `find_easy_collapse` (src/oneup/solver/strategy.py): pop the minimum
entropy position; on negative entropy set the solver state to `HALTED` and
return no action; on zero entropy return `SetPosition` with the unique
remaining candidate (`list(s)[0]` of a singleton set is its one element,
modelled as the minimum); otherwise return no action. -/
def find_easy_collapse (s : Solver) : Solver × Option SolverAction :=
  match heap_min ((non_fixed_positions s).enum.map
      (fun ip => (entropy s ip.2, ip.1, ip.2))) with
  | none => (s, none)
  | some epi =>
    if epi.1 < 0 then ({ s with state := .HALTED }, none)
    else if epi.1 = 0 then
      (s, some (.set_position epi.2.2
        (WithBot.unbot' 0 (s.possible_values epi.2.2).min)))
    else (s, none)

/-- `_is_group`: the union of the included domains is non-empty and has
exactly as many values as there are included positions. -/
def is_group (values : List (Finset Int)) : Bool :=
  let combined := values.foldl (· ∪ ·) ∅
  decide (0 < combined.card) && combined.card == values.length

/-- `_detect_group`, the branch-and-bound of the hidden-subset search.  The
fuel dominates the recursion depth: every recursive call moves one key from
the remaining set into `included` or `excluded`.  `reduce(operator.or_,
values, initial=set())` is the fold of union with initial value `∅`. -/
def detect_group_aux (size : Nat) (keys : Finset Position)
    (dom : Position → Finset Int) :
    Nat → Finset Position → Finset Position → Option (Finset Position)
  | 0, _, _ => none
  | fuel + 1, included, excluded =>
    let values := (sorted_list included).map dom
    if is_group values then some included
    else
      let included_values := values.foldl (· ∪ ·) ∅
      if size < included_values.card then none
      else
        let remaining := (sorted_list (keys \ (included ∪ excluded))).filter
          (fun p => (dom p).card ≤ size &&
            (included.card == 0 || !((included_values ∩ dom p).card == 0)))
        match remaining.getLast? with
        | none => none
        | some nxt =>
          match detect_group_aux size keys dom fuel (insert nxt included) excluded with
          | some found => some found
          | none => detect_group_aux size keys dom fuel included (insert nxt excluded)

/-- `detect_groups`: run the branch-and-bound with empty included and
excluded sets.  The fuel `keys.card + 1` is exact: the recursion stops once
the remaining set is empty. -/
def detect_groups (size : Nat) (keys : Finset Position)
    (dom : Position → Finset Int) : Option (Finset Position) :=
  detect_group_aux size keys dom (keys.card + 1) ∅ ∅

/-- The body of the hidden-subset loop of `default_solver_strategy` for one
vision group: restrict to ambiguous domains, try round sizes
`2 .. (group size - 1)`, and on a detected subset emit the
`RemovePossibleValue` actions for the rest of the group, provided at least
one of them changes a domain. -/
def subset_actions_for_group (s : Solver) (grp : Finset Position) :
    Option (List SolverAction) :=
  let gd := grp.filter (fun p => 1 < (s.possible_values p).card)
  ((List.range gd.card).drop 2).findSome? (fun round_size =>
    match detect_groups round_size gd s.possible_values with
    | none => none
    | some group_positions =>
      let round_values := (sorted_list group_positions).foldl
        (fun acc p => acc ∪ s.possible_values p) ∅
      let non_round := grp \ group_positions
      let result := (sorted_list non_round).flatMap (fun p =>
        (sorted_values round_values).filterMap (fun v =>
          if v ∈ s.possible_values p then
            some (.remove_possible_value p v)
          else none))
      if result = [] then none else some result)

/-- The depth-first search state of `detect_chains`: the traversal stack,
the discovery-index and low-link dicts (association lists keyed by first
occurrence), and the timer. -/
structure DfsState where
  stack : List Position
  ids : List (Position × Nat)
  lowest : List (Position × Nat)
  time : Nat

/-- Association-list read of a Python dict. -/
def assoc_get (l : List (Position × Nat)) (p : Position) : Option Nat :=
  (l.find? (fun pr => pr.1 == p)).map (·.2)

/-- Association-list write of a Python dict (replace or append). -/
def assoc_set (l : List (Position × Nat)) (p : Position) (v : Nat) :
    List (Position × Nat) :=
  if l.any (fun pr => pr.1 == p) then
    l.map (fun pr => if pr.1 == p then (p, v) else pr)
  else l ++ [(p, v)]

/-- The closing loop of `dfs`: pop stack entries, assigning each popped
node's low-link to the closing node's id, until the node itself is popped. -/
def pop_until (node : Position) (idv : Nat) :
    Nat → DfsState → DfsState
  | 0, st => st
  | fuel + 1, st =>
    match st.stack.getLast? with
    | none => st
    | some popped =>
      let st1 : DfsState :=
        { st with stack := st.stack.dropLast,
                  lowest := assoc_set st.lowest popped idv }
      if popped = node then st1 else pop_until node idv fuel st1

/-- `dfs` from src/oneup/solver/strategy.py: low-link depth-first search.
The fuel dominates the recursion depth, since every non-returning call
inserts a fresh node into `ids`. -/
def dfs (nbrs : Position → Finset Position) :
    Nat → Position → Option Position → DfsState → DfsState
  | 0, _, _, st => st
  | fuel + 1, node, parent, st =>
    if (assoc_get st.ids node).isSome then st
    else
      let time := st.time
      let st1 : DfsState :=
        { stack := st.stack ++ [node],
          ids := assoc_set st.ids node time,
          lowest := assoc_set st.lowest node time,
          time := time + 1 }
      let st2 := (sorted_list (nbrs node)).foldl
        (fun st nb =>
          if some nb = parent then st
          else
            let st3 :=
              if (assoc_get st.ids nb).isSome then st
              else dfs nbrs fuel nb (some node) st
            if nb ∈ st3.stack then
              let newlow := min ((assoc_get st3.lowest node).getD 0)
                ((assoc_get st3.lowest nb).getD 0)
              { st3 with lowest := assoc_set st3.lowest node newlow }
            else st3)
        st1
      if (assoc_get st2.ids node) ≠ (assoc_get st2.lowest node) then st2
      else pop_until node ((assoc_get st2.ids node).getD 0)
        (st2.stack.length + 1) st2

/-- `_is_chain`: at least two members, each seeing another member. -/
def is_chain (chain : Finset Position)
    (visionf : Position → Finset Position)
    (possibilities : Position → Finset Int) : Bool :=
  if chain.card < 2 then false
  else (sorted_list chain).all (fun p =>
    !(((visionf p) ∩ (chain.erase p)).card == 0))

/-- `detect_chains`: nodes are the dict keys with exactly two candidates
(for a solver the key set of `possible_values` is the free-position set
seeded at reset); edges join mutually visible nodes with intersecting
domains.  After the low-link search, `max(lowest.values())` raises
`ValueError` (`none`) when no node exists; otherwise the components are
grouped by low-link value and filtered by `_is_chain`. -/
def detect_chains (visionf : Position → Finset Position)
    (possibilities : Position → Finset Int) (keys : List Position) :
    Option (List (Finset Position)) :=
  let nodes : Finset Position :=
    (keys.filter (fun p => (possibilities p).card = 2)).toFinset
  let nbrs : Position → Finset Position := fun node =>
    (visionf node ∩ nodes).filter (fun p =>
      p ≠ node ∧ ((possibilities node) ∩ (possibilities p)).card ≠ 0)
  let st := (sorted_list nodes).foldl
    (fun st start => dfs nbrs (nodes.card + 1) start none st)
    ⟨[], [], [], 0⟩
  match st.lowest with
  | [] => none
  | l0 :: ls =>
    let component_count := (ls.map (·.2)).foldl Nat.max l0.2
    let candidates := (List.range (component_count + 1)).map (fun i =>
      (((l0 :: ls).filter (fun pr => pr.2 = i)).map (·.1)).toFinset)
    some (candidates.filter (fun c => is_chain c visionf possibilities))

/-- `_chain_values` as a counting function: how many member domains contain
the value `v`. -/
def chain_value_count (values : List (Finset Int)) (v : Int) : Nat :=
  (values.filter (fun dom => v ∈ dom)).length

/-- The mismatch set of `complete_chain`: the values occurring an odd
number of times across the chain members' domains. -/
def chain_mismatched_values (chain : Finset Position)
    (possibilities : Position → Finset Int) : Finset Int :=
  (((sorted_list chain).map possibilities).foldl (· ∪ ·) ∅).filter
    (fun v => chain_value_count ((sorted_list chain).map possibilities) v % 2 = 1)

/-- `complete_chain`: values with an odd occurrence count form the mismatch
set; the first chain member whose domain equals it exactly is excluded and
the rest returned, otherwise `None`.  (The source flags this logic with a
`BUG: WRONG` comment; it is modelled as written.) -/
def complete_chain (chain : Finset Position)
    (possibilities : Position → Finset Int) : Option (Finset Position) :=
  match (sorted_list chain).find?
      (fun p => possibilities p == chain_mismatched_values chain possibilities) with
  | none => none
  | some p => some (chain.erase p)

/-- `create_chain_actions`: for each aligned, mutually visible ordered pair
of chain members, eliminate their shared candidate values from the rest of
the shared vision line. -/
def create_chain_actions (chain : Finset Position) (s : Solver) :
    List SolverAction :=
  (sorted_list chain).flatMap (fun p =>
    (sorted_list chain).flatMap (fun partner =>
      if p = partner then []
      else
        match p.alignment partner with
        | .NONE => []
        | al =>
          if partner ∉ OneUp.vision s.game p then []
          else
            let vision_group :=
              if al = .HORIZONTAL then s.game.horizontal_vision p
              else s.game.vertical_vision p
            let excluded_group := vision_group \ ({p, partner} : Finset Position)
            let shared := (s.possible_values p) ∩ (s.possible_values partner)
            (sorted_values shared).flatMap (fun v =>
              (sorted_list excluded_group).filterMap (fun q =>
                if v ∈ s.possible_values q then
                  some (.remove_possible_value q v)
                else none))))

/-- `default_solver_strategy`: singleton collapse, then the first fruitful
hidden subset over the vision groups, then chain elimination.  The first
component is the solver as mutated by `find_easy_collapse` (the only
strategy phase that writes to the solver); the second is `none` when the
call raises (which `detect_chains` does on an empty node set). -/
def default_solver_strategy (s : Solver) : Solver × Option (List SolverAction) :=
  match find_easy_collapse s with
  | (s1, some a) => (s1, some [a])
  | (s1, none) =>
    match (OneUp.all_vision_groups s1.game).findSome?
        (subset_actions_for_group s1) with
    | some acts => (s1, some acts)
    | none =>
      match detect_chains (fun p => OneUp.vision s1.game p)
          s1.possible_values s1.game.free_positions with
      | none => (s1, none)
      | some chains =>
        let acts := chains.foldl
          (fun acc c =>
            acc ++ (match complete_chain c s1.possible_values with
                    | some completed => create_chain_actions completed s1
                    | none => [])) []
        (s1, some (if chains ≠ [] ∧ acts ≠ [] then acts else []))

/-- `OneUpSolver.step_solver` with the default strategy: an empty action
list halts the solver; otherwise the actions run through the queue and a
completed grid marks the solver `COMPLETE`.  `none` models an exception
escaping the step. -/
def step_solver (s : Solver) (q : ActionQueue) :
    Option (Solver × ActionQueue) :=
  match default_solver_strategy s with
  | (s1, none) => none
  | (s1, some []) => some ({ s1 with state := .HALTED }, q)
  | (s1, some acts) =>
    match q.perform_actions acts s1 with
    | none => none
    | some (q1, s2) =>
      if OneUp.is_complete s2.game then some ({ s2 with state := .COMPLETE }, q1)
      else some (s2, q1)

/-- `Grid.from_list`: build a grid from row-major literal data. -/
def grid_of_lists (n : Nat) (rows : List (List Int)) : Grid :=
  ⟨n, fun r c => (rows.getD r []).getD c 0⟩

/-- A 2 by 2 grid holding 1 2 / 3 4, for exercising raw grid access. -/
def g6 : Grid := grid_of_lists 2 [[1, 2], [3, 4]]

/-- The 1 by 1 empty puzzle. -/
def game1 : OneUp := mk_one_up (grid_of_lists 1 [[0]]) ∅ ∅

/-- A freshly reset solver on the 1 by 1 empty puzzle. -/
def solver1 : Solver := mk_solver game1

/-- The completed 2 by 2 puzzle 1 2 / 2 1 (wall-free, unblocked). -/
def game2 : OneUp := mk_one_up (grid_of_lists 2 [[1, 2], [2, 1]]) ∅ ∅

/-- A freshly reset solver on the completed 2 by 2 puzzle: every domain is a
singleton, so no position has exactly two candidates. -/
def solver2 : Solver := mk_solver game2

/-- A 3 by 3 wall-free puzzle with row 0 empty and the rest filled. -/
def game_c1 : OneUp :=
  mk_one_up (grid_of_lists 3 [[0, 0, 0], [4, 5, 6], [7, 8, 0]]) ∅ ∅

/-- Candidate domains for `solver_c1`: the row-0 vision group carries the
hidden pair {1,2}, {1,2}, {1,2,3}; the free non-fixed position (2,2) has an
empty domain (a contradiction); the filled cells are singletons. -/
def pv_c1 : Position → Finset Int := fun p =>
  if p = ⟨0, 0⟩ then {1, 2}
  else if p = ⟨0, 1⟩ then {1, 2}
  else if p = ⟨0, 2⟩ then {1, 2, 3}
  else if p = ⟨1, 0⟩ then {4}
  else if p = ⟨1, 1⟩ then {5}
  else if p = ⟨1, 2⟩ then {6}
  else if p = ⟨2, 0⟩ then {7}
  else if p = ⟨2, 1⟩ then {8}
  else ∅

/-- A solving-state solver with a contradicted position and, in the same
state, a fruitful hidden pair in another vision group. -/
def solver_c1 : Solver :=
  { game := game_c1, possible_values := pv_c1, hints := fun _ => ∅,
    state := .SOLVING }

/-- The same 3 by 3 layout with every position outside row 0 filled. -/
def game_c3 : OneUp :=
  mk_one_up (grid_of_lists 3 [[0, 0, 0], [4, 5, 6], [7, 8, 9]]) ∅ ∅

/-- Candidate domains for `solver_c3`: the spec scenario — one vision group
(row 0) of three ambiguous positions with domains {1,2}, {1,2}, {1,2,3};
everything else is a settled singleton. -/
def pv_c3 : Position → Finset Int := fun p =>
  if p = ⟨0, 0⟩ then {1, 2}
  else if p = ⟨0, 1⟩ then {1, 2}
  else if p = ⟨0, 2⟩ then {1, 2, 3}
  else if p = ⟨1, 0⟩ then {4}
  else if p = ⟨1, 1⟩ then {5}
  else if p = ⟨1, 2⟩ then {6}
  else if p = ⟨2, 0⟩ then {7}
  else if p = ⟨2, 1⟩ then {8}
  else if p = ⟨2, 2⟩ then {9}
  else ∅

/-- The spec's hidden-subset scenario as a solver state. -/
def solver_c3 : Solver :=
  { game := game_c3, possible_values := pv_c3, hints := fun _ => ∅,
    state := .SOLVING }

/-- Folding `max` returns a bound that is the seed or a member. -/
theorem foldl_max_spec (xs : List Nat) : ∀ a : Nat,
    (xs.foldl max a = a ∨ xs.foldl max a ∈ xs) ∧
    a ≤ xs.foldl max a ∧ ∀ x ∈ xs, x ≤ xs.foldl max a := by
  induction xs with
  | nil => intro a; simp
  | cons b bs ih =>
    intro a
    simp only [List.foldl_cons]
    obtain ⟨hmem, hle, hall⟩ := ih (max a b)
    refine ⟨?_, le_trans (le_max_left a b) hle, ?_⟩
    · rcases hmem with h | h
      · rcases max_choice a b with hc | hc
        · exact Or.inl (by rw [h, hc])
        · exact Or.inr (by rw [h, hc]; exact List.mem_cons_self b bs)
      · exact Or.inr (List.mem_cons_of_mem b h)
    · intro x hx
      rcases List.mem_cons.mp hx with hx | hx
      · subst hx; exact le_trans (le_max_right a x) hle
      · exact hall x hx

/-- `list_max` returns a member that bounds every member. -/
theorem list_max_spec {l : List Nat} {m : Nat} (h : list_max l = some m) :
    m ∈ l ∧ ∀ x ∈ l, x ≤ m := by
  cases l with
  | nil => cases h
  | cons a as =>
    simp only [list_max, Option.some.injEq] at h
    obtain ⟨hmem, hle, hall⟩ := foldl_max_spec as a
    subst h
    constructor
    · rcases hmem with h | h
      · rw [h]; exact List.mem_cons_self a as
      · exact List.mem_cons_of_mem a h
    · intro x hx
      rcases List.mem_cons.mp hx with hx | hx
      · rw [hx]; exact hle
      · exact hall x hx

/-- Folding `min` returns a bound that is the seed or a member. -/
theorem foldl_min_spec (xs : List Nat) : ∀ a : Nat,
    (xs.foldl min a = a ∨ xs.foldl min a ∈ xs) ∧
    xs.foldl min a ≤ a ∧ ∀ x ∈ xs, xs.foldl min a ≤ x := by
  induction xs with
  | nil => intro a; simp
  | cons b bs ih =>
    intro a
    simp only [List.foldl_cons]
    obtain ⟨hmem, hle, hall⟩ := ih (min a b)
    refine ⟨?_, le_trans hle (min_le_left a b), ?_⟩
    · rcases hmem with h | h
      · rcases min_choice a b with hc | hc
        · exact Or.inl (by rw [h, hc])
        · exact Or.inr (by rw [h, hc]; exact List.mem_cons_self b bs)
      · exact Or.inr (List.mem_cons_of_mem b h)
    · intro x hx
      rcases List.mem_cons.mp hx with hx | hx
      · subst hx; exact le_trans hle (min_le_right a x)
      · exact hall x hx

/-- `list_min` returns a member below every member. -/
theorem list_min_spec {l : List Nat} {m : Nat} (h : list_min l = some m) :
    m ∈ l ∧ ∀ x ∈ l, m ≤ x := by
  cases l with
  | nil => cases h
  | cons a as =>
    simp only [list_min, Option.some.injEq] at h
    obtain ⟨hmem, hle, hall⟩ := foldl_min_spec as a
    subst h
    constructor
    · rcases hmem with h | h
      · rw [h]; exact List.mem_cons_self a as
      · exact List.mem_cons_of_mem a h
    · intro x hx
      rcases List.mem_cons.mp hx with hx | hx
      · rw [hx]; exact hle
      · exact hall x hx

/-- Every list member occurs in its enumeration at some index. -/
theorem exists_enum_of_mem {α : Type} {l : List α} {a : α} (h : a ∈ l) :
    ∃ i, (i, a) ∈ l.enum := by
  suffices hgen : ∀ n, ∃ i, (i, a) ∈ l.enumFrom n from hgen 0
  induction l with
  | nil => cases h
  | cons b bs ih =>
    intro n
    rcases List.mem_cons.mp h with hb | hb
    · exact ⟨n, by simp [List.enumFrom, hb]⟩
    · obtain ⟨i, hi⟩ := ih hb (n + 1)
      exact ⟨i, by simp [List.enumFrom]; exact Or.inr hi⟩

/-- The entropy selected by `heap_min` is a lower bound of the entropies in
the list (the heap root is the minimum of the heapified list). -/
theorem heap_min_fst_le {l : List (Int × Nat × Position)}
    {m : Int × Nat × Position} (hm : heap_min l = some m) :
    ∀ x ∈ l, m.1 ≤ x.1 := by
  cases l with
  | nil => cases hm
  | cons a as =>
    simp only [heap_min, Option.some.injEq] at hm
    subst hm
    suffices hgen : ∀ (xs : List (Int × Nat × Position)) (b : Int × Nat × Position),
        (xs.foldl (fun a b =>
          if b.1 < a.1 ∨ (b.1 = a.1 ∧ b.2.1 < a.2.1) then b else a) b).1 ≤ b.1 ∧
        ∀ x ∈ xs, (xs.foldl (fun a b =>
          if b.1 < a.1 ∨ (b.1 = a.1 ∧ b.2.1 < a.2.1) then b else a) b).1 ≤ x.1 by
      intro x hx
      rcases List.mem_cons.mp hx with hx | hx
      · exact hx ▸ (hgen as a).1
      · exact (hgen as a).2 x hx
    intro xs
    induction xs with
    | nil => intro b; simp
    | cons c cs ih =>
      intro b
      simp only [List.foldl_cons]
      have hstep : ((if c.1 < b.1 ∨ (c.1 = b.1 ∧ c.2.1 < b.2.1) then c else b).1 ≤ b.1) ∧
          ((if c.1 < b.1 ∨ (c.1 = b.1 ∧ c.2.1 < b.2.1) then c else b).1 ≤ c.1) := by
        split
        next hcond =>
          rcases hcond with hlt | ⟨heq, _⟩
          · exact ⟨le_of_lt hlt, le_refl _⟩
          · exact ⟨le_of_eq heq, le_refl _⟩
        next hcond =>
          refine ⟨le_refl _, ?_⟩
          rcases lt_trichotomy c.1 b.1 with hlt | heq | hgt
          · exact absurd (Or.inl hlt) hcond
          · exact le_of_eq heq.symm
          · exact le_of_lt hgt
      obtain ⟨hseed, hall⟩ := ih (if c.1 < b.1 ∨ (c.1 = b.1 ∧ c.2.1 < b.2.1) then c else b)
      refine ⟨le_trans hseed hstep.1, ?_⟩
      intro x hx
      rcases List.mem_cons.mp hx with hx | hx
      · subst hx; exact le_trans hseed hstep.2
      · exact hall x hx

/-- A failed `perform` leaves the solver unchanged (the only mutating
failure, re-adding a present hint or candidate, is a set no-op). -/
theorem perform_failed_id {a : SolverAction} {s : Solver} {r : ActionResult}
    {s1 : Solver} (hp : perform a s = some (r, s1)) (hs : r.succeeded = false) :
    s1 = s := by
  obtain ⟨g, pv, hnt, st⟩ := s
  cases a with
  | add_hint p v =>
    simp only [perform] at hp
    split at hp
    next hv =>
      simp only [Option.some.injEq, Prod.mk.injEq] at hp
      obtain ⟨hr, h1⟩ := hp
      rw [← h1]
      simp only [Solver.mk.injEq, and_true, true_and]
      rw [Finset.insert_eq_self.mpr hv, Function.update_eq_self]
    next hv =>
      simp only [Option.some.injEq, Prod.mk.injEq] at hp
      rw [← hp.1] at hs
      simp at hs
  | remove_hint p v =>
    simp only [perform] at hp
    split at hp
    next hv =>
      simp only [Option.some.injEq, Prod.mk.injEq] at hp
      rw [← hp.1] at hs
      simp at hs
    next hv => simp at hp
  | add_possible_value p v =>
    simp only [perform] at hp
    split at hp
    next hv =>
      simp only [Option.some.injEq, Prod.mk.injEq] at hp
      obtain ⟨hr, h1⟩ := hp
      rw [← h1]
      simp only [Solver.mk.injEq, and_true, true_and]
      rw [Finset.insert_eq_self.mpr hv, Function.update_eq_self]
    next hv =>
      simp only [Option.some.injEq, Prod.mk.injEq] at hp
      rw [← hp.1] at hs
      simp at hs
  | remove_possible_value p v =>
    simp only [perform] at hp
    split at hp
    next hv =>
      simp only [Option.some.injEq, Prod.mk.injEq] at hp
      rw [← hp.1] at hs
      simp at hs
    next hv =>
      simp only [Option.some.injEq, Prod.mk.injEq] at hp
      exact hp.2.symm
  | set_possible_values p vs =>
    simp only [perform, Option.some.injEq, Prod.mk.injEq] at hp
    rw [← hp.1] at hs
    simp at hs
  | propagate_value p =>
    simp only [perform] at hp
    split at hp
    next => simp at hp
    next value hg =>
      split at hp
      next hz =>
        simp only [Option.some.injEq, Prod.mk.injEq] at hp
        exact hp.2.symm
      next hz =>
        split at hp
        next hfree =>
          simp only [Option.some.injEq, Prod.mk.injEq] at hp
          rw [← hp.1] at hs
          simp at hs
        next hfree => simp at hp
  | set_position p v =>
    simp only [perform] at hp
    split at hp
    next => simp at hp
    next current hg =>
      split at hp
      next hz =>
        simp only [Option.some.injEq, Prod.mk.injEq] at hp
        exact hp.2.symm
      next hz =>
        simp only [Option.some.injEq, Prod.mk.injEq] at hp
        rw [← hp.1] at hs
        simp at hs

/-- Undoing a successful `perform` restores the exact prior solver: every
undo closure captures precisely the pre-mutation values it re-installs. -/
theorem perform_undo_inverts {a : SolverAction} {s : Solver} {r : ActionResult}
    {s1 : Solver} (hp : perform a s = some (r, s1)) (hs : r.succeeded = true) :
    apply_undo r.undo s1 = s := by
  obtain ⟨⟨⟨n, dat⟩, w, bl, fx⟩, pv, hnt, st⟩ := s
  cases a with
  | add_hint p v =>
    simp only [perform] at hp
    split at hp
    next hv =>
      simp only [Option.some.injEq, Prod.mk.injEq] at hp
      rw [← hp.1] at hs
      simp at hs
    next hv =>
      simp only [Option.some.injEq, Prod.mk.injEq] at hp
      obtain ⟨hr, h1⟩ := hp
      rw [← hr, ← h1]
      simp only [apply_undo, Solver.mk.injEq, and_true, true_and]
      rw [Function.update_same, Finset.erase_insert hv, Function.update_idem,
        Function.update_eq_self]
  | remove_hint p v =>
    simp only [perform] at hp
    split at hp
    next hv =>
      simp only [Option.some.injEq, Prod.mk.injEq] at hp
      obtain ⟨hr, h1⟩ := hp
      rw [← hr, ← h1]
      simp only [apply_undo, Solver.mk.injEq, and_true, true_and]
      rw [Function.update_same, Finset.insert_erase hv, Function.update_idem,
        Function.update_eq_self]
    next hv => simp at hp
  | add_possible_value p v =>
    simp only [perform] at hp
    split at hp
    next hv =>
      simp only [Option.some.injEq, Prod.mk.injEq] at hp
      rw [← hp.1] at hs
      simp at hs
    next hv =>
      simp only [Option.some.injEq, Prod.mk.injEq] at hp
      obtain ⟨hr, h1⟩ := hp
      rw [← hr, ← h1]
      simp only [apply_undo, Solver.mk.injEq, and_true, true_and]
      rw [Function.update_same, Finset.erase_insert hv, Function.update_idem,
        Function.update_eq_self]
  | remove_possible_value p v =>
    simp only [perform] at hp
    split at hp
    next hv =>
      simp only [Option.some.injEq, Prod.mk.injEq] at hp
      obtain ⟨hr, h1⟩ := hp
      rw [← hr, ← h1]
      simp only [apply_undo, Solver.mk.injEq, and_true, true_and]
      rw [Function.update_same, Finset.insert_erase hv, Function.update_idem,
        Function.update_eq_self]
    next hv =>
      simp only [Option.some.injEq, Prod.mk.injEq] at hp
      rw [← hp.1] at hs
      simp at hs
  | set_possible_values p vs =>
    simp only [perform, Option.some.injEq, Prod.mk.injEq] at hp
    obtain ⟨hr, h1⟩ := hp
    rw [← hr, ← h1]
    simp only [apply_undo, Solver.mk.injEq, and_true, true_and]
    rw [Function.update_idem, Function.update_eq_self]
  | propagate_value p =>
    simp only [perform] at hp
    split at hp
    next => simp at hp
    next value hg =>
      split at hp
      next hz =>
        simp only [Option.some.injEq, Prod.mk.injEq] at hp
        rw [← hp.1] at hs
        simp at hs
      next hz =>
        split at hp
        next hfree =>
          simp only [Option.some.injEq, Prod.mk.injEq] at hp
          obtain ⟨hr, h1⟩ := hp
          rw [← hr, ← h1]
          simp only [apply_undo, Solver.mk.injEq, and_true, true_and]
          funext q
          by_cases hq : q ∈ Finset.filter
              (fun q => value ∈ pv q)
              (OneUp.other_visible ⟨⟨n, dat⟩, w, bl, fx⟩ p)
          · simp only [hq, if_true]
            exact Finset.insert_erase (Finset.mem_filter.mp hq).2
          · simp only [hq, if_false]
        next hfree => simp at hp
  | set_position p v =>
    simp only [perform] at hp
    split at hp
    next => simp at hp
    next current hg =>
      split at hp
      next hz =>
        simp only [Option.some.injEq, Prod.mk.injEq] at hp
        rw [← hp.1] at hs
        simp at hs
      next hz =>
        simp only [Option.some.injEq, Prod.mk.injEq] at hp
        obtain ⟨hr, h1⟩ := hp
        rw [← hr, ← h1]
        simp only [apply_undo, Solver.mk.injEq, OneUp.mk.injEq, and_true, true_and]
        by_cases hib : Grid.is_in_bounds ⟨n, dat⟩ p = true
        · have hb := of_decide_eq_true hib
          obtain ⟨h1r, h2r, h3c, h4c⟩ := hb
          have hg' : current = dat p.row.toNat p.col.toNat := by
            simp [Grid.get_position, np_index, h1r, h2r, h3c, h4c] at hg
            exact hg.symm
          simp only [Grid.set_position, hib, if_true]
          have hib2 : Grid.is_in_bounds
              ⟨n, fun r c => if r = p.row.toNat ∧ c = p.col.toNat then v else dat r c⟩
              p = true := hib
          simp only [hib2, if_true, Grid.mk.injEq, true_and]
          funext r c
          by_cases hrc : r = p.row.toNat ∧ c = p.col.toNat
          · obtain ⟨hrr, hcc⟩ := hrc
            subst hrr; subst hcc
            simp only [and_self, if_true]
            exact hg'
          · simp only [hrc, if_false]
        · have hib' : Grid.is_in_bounds ⟨n, dat⟩ p = false :=
            eq_false_of_ne_true hib
          simp only [Grid.set_position, hib', Bool.false_eq_true, if_false]

/-- A log region `(acts, rs)` records a successful in-order execution from
`s0` to `s2`: each logged action was performed in the intermediate state and
succeeded with the recorded result. -/
inductive Replay : List SolverAction → List ActionResult → Solver → Solver → Prop
  | nil (s : Solver) : Replay [] [] s s
  | cons {a : SolverAction} {r : ActionResult} {s0 s1 s2 : Solver}
      {acts : List SolverAction} {rs : List ActionResult}
      (hp : perform a s0 = some (r, s1)) (hs : r.succeeded = true)
      (ht : Replay acts rs s1 s2) : Replay (a :: acts) (r :: rs) s0 s2

/-- A replayed region logs one result per action. -/
theorem Replay.length_eq {acts : List SolverAction} {rs : List ActionResult}
    {s0 s2 : Solver} (h : Replay acts rs s0 s2) : acts.length = rs.length := by
  induction h with
  | nil => rfl
  | cons _ _ _ ih => simpa using ih

/-- An empty replayed region connects a state to itself. -/
theorem Replay.nil_inv {s0 s2 : Solver} (h : Replay [] [] s0 s2) : s0 = s2 := by
  cases h; rfl

/-- Replayed regions compose. -/
theorem Replay.append {as : List SolverAction} {rs : List ActionResult}
    {bs : List SolverAction} {ts : List ActionResult} {s0 s1 s2 : Solver}
    (h1 : Replay as rs s0 s1) (h2 : Replay bs ts s1 s2) :
    Replay (as ++ bs) (rs ++ ts) s0 s2 := by
  induction h1 with
  | nil => simpa using h2
  | cons hp hs _ ih => exact Replay.cons hp hs (ih h2)

/-- A replayed region extends by one more successful action. -/
theorem Replay.snoc {as : List SolverAction} {rs : List ActionResult}
    {s0 s1 s2 : Solver} {a : SolverAction} {r : ActionResult}
    (h1 : Replay as rs s0 s1) (hp : perform a s1 = some (r, s2))
    (hs : r.succeeded = true) : Replay (as ++ [a]) (rs ++ [r]) s0 s2 :=
  h1.append (Replay.cons hp hs (Replay.nil s2))

/-- A replayed region splits at any index into two replayed regions. -/
theorem Replay.split {as : List SolverAction} {rs : List ActionResult}
    {s0 s2 : Solver} (h : Replay as rs s0 s2) (k : Nat) :
    ∃ sm, Replay (as.take k) (rs.take k) s0 sm ∧
      Replay (as.drop k) (rs.drop k) sm s2 := by
  induction h generalizing k with
  | nil s => exact ⟨s, by simpa using Replay.nil s, by simpa using Replay.nil s⟩
  | cons hp hs ht ih =>
    cases k with
    | zero => exact ⟨_, Replay.nil _, Replay.cons hp hs ht⟩
    | succ k =>
      obtain ⟨sm, h1, h2⟩ := ih k
      exact ⟨sm, Replay.cons hp hs h1, h2⟩

/-- Undoing the recorded results of a replayed region in reverse order
restores the region's start state exactly. -/
theorem Replay.undo_fold {as : List SolverAction} {rs : List ActionResult}
    {s0 s2 : Solver} (h : Replay as rs s0 s2) :
    rs.reverse.foldl (fun s r => apply_undo r.undo s) s2 = s0 := by
  induction h with
  | nil => rfl
  | cons hp hs _ ih =>
    rw [List.reverse_cons, List.foldl_append, ih, List.foldl_cons,
      List.foldl_nil, perform_undo_inverts hp hs]

/-- Re-performing the recorded actions of a replayed region in forward
order reproduces the region's end state (perform is deterministic). -/
theorem Replay.redo_eq {as : List SolverAction} {rs : List ActionResult}
    {s0 s2 : Solver} (h : Replay as rs s0 s2) : redo_run as s0 = some s2 := by
  induction h with
  | nil => rfl
  | cons hp _ _ ih => simp only [redo_run, hp]; exact ih

/-- The structural queue invariant: results pair with actions, the cursor
stays inside the log, and every save point stays inside the log. -/
def QueueWF (q : ActionQueue) : Prop :=
  q.action_results.length = q.actions.length ∧
  q.action_index ≤ q.actions.length ∧
  ∀ t ∈ q.save_points, t ≤ q.actions.length

instance (q : ActionQueue) : Decidable (QueueWF q) := by
  unfold QueueWF; infer_instance

/-- The queue is coherent with the solver it drives: the log up to the
cursor replays from some base state to the current solver state. -/
def Coherent (q : ActionQueue) (s : Solver) : Prop :=
  ∃ s0, Replay (q.actions.take q.action_index)
    (q.action_results.take q.action_index) s0 s

/-- The stack loop keeps actions and results in lockstep, keeps the cursor
at the log end, never touches the save points, and only appends to the log. -/
theorem run_stack_wf : ∀ (fuel : Nat) (stack : List SolverAction)
    (q : ActionQueue) (s : Solver) (q1 : ActionQueue) (s1 : Solver),
    run_stack fuel stack q s = some (q1, s1) →
    q.action_results.length = q.actions.length →
    q.action_index = q.actions.length →
    q1.action_results.length = q1.actions.length ∧
    q1.action_index = q1.actions.length ∧
    q1.save_points = q.save_points ∧
    q.actions.length ≤ q1.actions.length := by
  intro fuel
  induction fuel with
  | zero => intro stack q s q1 s1 h _ _; cases h
  | succ n ih =>
    intro stack q s q1 s1 h hlock hidx
    cases stack with
    | nil =>
      simp only [run_stack, Option.some.injEq, Prod.mk.injEq] at h
      obtain ⟨hq, _⟩ := h
      subst hq
      exact ⟨hlock, hidx, rfl, le_refl _⟩
    | cons a rest =>
      simp only [run_stack] at h
      cases hp : perform a s with
      | none => rw [hp] at h; cases h
      | some rs2 =>
        rw [hp] at h
        obtain ⟨r, s2⟩ := rs2
        dsimp only at h
        by_cases hsb : r.succeeded = true
        · rw [if_pos hsb] at h
          obtain ⟨l1, l2, l3, l4⟩ := ih _ _ _ _ _ h
            (by simp [hlock]) (by simp [hidx])
          refine ⟨l1, l2, l3, le_trans ?_ l4⟩
          simp
        · rw [if_neg hsb] at h
          exact ih _ _ _ _ _ h hlock hidx

/-- The stack loop preserves coherence: the extended log replays from the
same base state to the final solver state. -/
theorem run_stack_replay : ∀ (fuel : Nat) (stack : List SolverAction)
    (q : ActionQueue) (s : Solver) (q1 : ActionQueue) (s1 : Solver) (s0 : Solver),
    run_stack fuel stack q s = some (q1, s1) →
    Replay q.actions q.action_results s0 s →
    Replay q1.actions q1.action_results s0 s1 := by
  intro fuel
  induction fuel with
  | zero => intro stack q s q1 s1 s0 h _; cases h
  | succ n ih =>
    intro stack q s q1 s1 s0 h hrep
    cases stack with
    | nil =>
      simp only [run_stack, Option.some.injEq, Prod.mk.injEq] at h
      obtain ⟨hq, hs⟩ := h
      subst hq; subst hs
      exact hrep
    | cons a rest =>
      simp only [run_stack] at h
      cases hp : perform a s with
      | none => rw [hp] at h; cases h
      | some rs2 =>
        rw [hp] at h
        obtain ⟨r, s2⟩ := rs2
        dsimp only at h
        by_cases hsb : r.succeeded = true
        · rw [if_pos hsb] at h
          exact ih _ _ _ _ _ _ h (hrep.snoc hp hsb)
        · rw [if_neg hsb] at h
          rw [perform_failed_id hp (eq_false_of_ne_true hsb)] at h
          exact ih _ _ _ _ _ _ h hrep

/-- After drop-future normalization the cursor is at the log end, actions
and results are in lockstep, save points stay in the log, and the log up to
the cursor is unchanged, so coherence carries over as a full-log replay. -/
theorem normalized_props {q : ActionQueue} {s s0 : Solver}
    (hlock : q.action_results.length = q.actions.length)
    (hle : q.action_index ≤ q.actions.length)
    (hsp : ∀ t ∈ q.save_points, t ≤ q.actions.length)
    (hrep : Replay (q.actions.take q.action_index)
      (q.action_results.take q.action_index) s0 s) :
    q.normalized.action_results.length = q.normalized.actions.length ∧
    q.normalized.action_index = q.normalized.actions.length ∧
    (∀ t ∈ q.normalized.save_points, t ≤ q.normalized.actions.length) ∧
    Replay q.normalized.actions q.normalized.action_results s0 s := by
  unfold ActionQueue.normalized
  by_cases hcur : q.is_current
  · rw [if_pos hcur]
    have hidx : q.action_index = q.actions.length := by
      simpa [ActionQueue.is_current] using hcur
    have h1 : q.actions.take q.action_index = q.actions := by
      rw [hidx]; exact List.take_length q.actions
    have h2 : q.action_results.take q.action_index = q.action_results := by
      rw [hidx, ← hlock]; exact List.take_length q.action_results
    rw [h1, h2] at hrep
    exact ⟨hlock, hidx, hsp, hrep⟩
  · rw [if_neg hcur]
    have hlen : (q.actions.take q.action_index).length = q.action_index := by
      rw [List.length_take]; exact Nat.min_eq_left hle
    refine ⟨?_, ?_, ?_, hrep⟩
    · simp only [ActionQueue.drop_future, List.length_take, hlock]
    · simp only [ActionQueue.drop_future, hlen]
    · intro t ht
      simp only [ActionQueue.drop_future, List.mem_filter] at ht
      rw [ActionQueue.drop_future, hlen]
      exact of_decide_eq_true ht.2

/-- Ensuring a save point at the cursor only touches the save points, and
when the cursor is at the log end the new save point is in the log. -/
theorem with_savepoint_props {q : ActionQueue}
    (hlock : q.action_results.length = q.actions.length)
    (hidx : q.action_index = q.actions.length)
    (hsp : ∀ t ∈ q.save_points, t ≤ q.actions.length) :
    q.with_savepoint.actions = q.actions ∧
    q.with_savepoint.action_results = q.action_results ∧
    q.with_savepoint.action_index = q.action_index ∧
    ∀ t ∈ q.with_savepoint.save_points, t ≤ q.with_savepoint.actions.length := by
  unfold ActionQueue.with_savepoint
  by_cases hin : q.action_index ∈ q.save_points
  · rw [if_pos hin]
    exact ⟨rfl, rfl, rfl, hsp⟩
  · rw [if_neg hin]
    refine ⟨rfl, rfl, rfl, ?_⟩
    intro t ht
    simp only [List.mem_append, List.mem_singleton] at ht
    rcases ht with ht | ht
    · exact hsp t ht
    · rw [ht, hlock]

/-- Running a non-empty batch leaves the queue well formed, the cursor at
the log end, and the whole log coherent with the resulting solver state. -/
theorem perform_actions_spec {q : ActionQueue} {batch : List SolverAction}
    {s : Solver} {q1 : ActionQueue} {s1 : Solver}
    (hrun : q.perform_actions batch s = some (q1, s1)) (hne : batch ≠ [])
    (hwf : QueueWF q) (hcoh : Coherent q s) :
    (∃ s0, Replay q1.actions q1.action_results s0 s1) ∧
    q1.action_index = q1.actions.length ∧
    q1.action_results.length = q1.actions.length ∧
    (∀ t ∈ q1.save_points, t ≤ q1.actions.length) := by
  obtain ⟨hlock, hle, hsp⟩ := hwf
  obtain ⟨s0, hrep⟩ := hcoh
  obtain ⟨hn1, hn2, hn3, hn4⟩ := normalized_props hlock hle hsp hrep
  obtain ⟨hw1, hw2, hw3, hw4⟩ := with_savepoint_props hn1 hn2 hn3
  unfold ActionQueue.perform_actions at hrun
  rw [if_neg hne] at hrun
  obtain ⟨l1, l2, l3, l4⟩ := run_stack_wf _ _ _ _ _ _ hrun
    (by rw [hw1, hw2]; exact hn1) (by rw [hw1, hw3]; exact hn2)
  have hreplay := run_stack_replay _ _ _ _ _ _ s0 hrun (by rw [hw1, hw2]; exact hn4)
  refine ⟨⟨s0, hreplay⟩, l2, l1, ?_⟩
  intro t ht
  rw [l3] at ht
  exact le_trans (hw4 t ht) l4

/-- Moving the cursor down to `sp` undoes exactly the logged results beyond
`sp` in reverse order, landing on the replay state at `sp`. -/
theorem move_down_of_replay {q : ActionQueue} {s s0 : Solver} {sp : Nat}
    (hrep : Replay q.actions q.action_results s0 s)
    (hidx : q.action_index = q.actions.length)
    (hlt : sp < q.action_index) :
    ∃ sm, Replay (q.actions.take sp) (q.action_results.take sp) s0 sm ∧
      Replay (q.actions.drop sp) (q.action_results.drop sp) sm s ∧
      q.move_to_index sp s = some ({ q with action_index := sp }, sm) := by
  obtain ⟨sm, h1, h2⟩ := hrep.split sp
  have hrl : q.action_results.length = q.actions.length := hrep.length_eq.symm
  have hsple : sp ≤ q.actions.length := le_of_lt (lt_of_lt_of_le hlt (le_of_eq hidx))
  have hmin : min q.actions.length sp = sp := Nat.min_eq_right hsple
  have htake : q.action_results.take q.action_index = q.action_results := by
    rw [hidx, ← hrl]
    exact List.take_length q.action_results
  refine ⟨sm, h1, h2, ?_⟩
  unfold ActionQueue.move_to_index ActionQueue.results_back_to
  rw [hmin, htake, if_neg (ne_of_gt hlt), if_pos hlt]
  have h3 : q.action_index - (q.action_results.drop sp).length = sp := by
    rw [List.length_drop]
    omega
  rw [h3, h2.undo_fold]

/-- After a full-log replay with the cursor at the end, `undo` followed by
`redo` returns to the end of the unchanged log with the exact same solver
state. -/
theorem undo_redo_of_full_replay (q : ActionQueue) (s s0 : Solver)
    (hrep : Replay q.actions q.action_results s0 s)
    (hidx : q.action_index = q.actions.length)
    (hsp : ∀ t ∈ q.save_points, t ≤ q.actions.length) :
    ∃ qu su, q.undo s = some (qu, su) ∧
      ∃ q2, qu.redo su = some (q2, s) ∧ q2.actions = q.actions ∧
        q2.action_index = q.actions.length := by
  cases hprev : q.previous_savepoint with
  | none =>
    refine ⟨q, s, ?_, q, ?_, rfl, hidx⟩
    · unfold ActionQueue.undo
      rw [hprev]
    · have hfilt : q.save_points.filter (fun t => q.action_index < t) = [] := by
        rw [List.filter_eq_nil_iff]
        intro t ht
        simp only [decide_eq_true_eq, not_lt]
        exact hidx ▸ hsp t ht
      unfold ActionQueue.redo ActionQueue.next_savepoint
      rw [hfilt]
      simp [list_min, hidx]
  | some sp =>
    unfold ActionQueue.previous_savepoint at hprev
    obtain ⟨hmem, hmax⟩ := list_max_spec hprev
    have hmem' := List.mem_filter.mp hmem
    have hsplt : sp < q.action_index := of_decide_eq_true hmem'.2
    obtain ⟨sm, h1, h2, hmove⟩ := move_down_of_replay hrep hidx hsplt
    refine ⟨{ q with action_index := sp }, sm, ?_, ?_⟩
    · unfold ActionQueue.undo ActionQueue.previous_savepoint
      rw [hprev]
      exact hmove
    · have hall : ∀ t ∈ q.save_points.filter (fun t => sp < t),
          t = q.actions.length := by
        intro t ht
        have ht' := List.mem_filter.mp ht
        have h1t := hsp t ht'.1
        have h2t : sp < t := of_decide_eq_true ht'.2
        rcases lt_or_ge t q.action_index with hlt2 | hge
        · have htf : t ∈ q.save_points.filter (fun t => t < q.action_index) :=
            List.mem_filter.mpr ⟨ht'.1, decide_eq_true hlt2⟩
          exact absurd (hmax t htf) (not_le.mpr h2t)
        · exact le_antisymm h1t (hidx ▸ hge)
      have htarget : ({ q with action_index := sp } : ActionQueue).next_savepoint.getD
          q.actions.length = q.actions.length := by
        unfold ActionQueue.next_savepoint
        cases hm : list_min (q.save_points.filter (fun t => sp < t)) with
        | none => simp
        | some m =>
          obtain ⟨hmm, _⟩ := list_min_spec hm
          simp only [Option.getD_some]
          exact hall m hmm
      have hspne : sp ≠ q.actions.length := ne_of_lt (lt_of_lt_of_le hsplt (le_of_eq hidx))
      have hmove_up : ({ q with action_index := sp } : ActionQueue).move_to_index
          q.actions.length sm = some ({ q with action_index := q.actions.length }, s) := by
        unfold ActionQueue.move_to_index ActionQueue.actions_up_to
        rw [min_self, if_neg hspne, if_neg (not_lt.mpr (le_of_lt (lt_of_lt_of_le hsplt (le_of_eq hidx)))),
          List.take_length, h2.redo_eq]
        have hlen : sp + (q.actions.drop sp).length = q.actions.length := by
          rw [List.length_drop]
          omega
        rw [hlen]
      unfold ActionQueue.redo
      dsimp only
      rw [htarget, if_neg (Ne.symm hspne), hmove_up]
      exact ⟨{ q with action_index := q.actions.length }, rfl, rfl, rfl⟩

/-- Drop-future normalization without coherence: structural facts only. -/
theorem normalized_wf {q : ActionQueue}
    (hlock : q.action_results.length = q.actions.length)
    (hle : q.action_index ≤ q.actions.length)
    (hsp : ∀ t ∈ q.save_points, t ≤ q.actions.length) :
    q.normalized.action_results.length = q.normalized.actions.length ∧
    q.normalized.action_index = q.normalized.actions.length ∧
    (∀ t ∈ q.normalized.save_points, t ≤ q.normalized.actions.length) := by
  unfold ActionQueue.normalized
  by_cases hcur : q.is_current
  · rw [if_pos hcur]
    have hidx : q.action_index = q.actions.length := by
      simpa [ActionQueue.is_current] using hcur
    exact ⟨hlock, hidx, hsp⟩
  · rw [if_neg hcur]
    have hlen : (q.actions.take q.action_index).length = q.action_index := by
      rw [List.length_take]; exact Nat.min_eq_left hle
    refine ⟨?_, ?_, ?_⟩
    · simp only [ActionQueue.drop_future, List.length_take, hlock]
    · simp only [ActionQueue.drop_future, hlen]
    · intro t ht
      simp only [ActionQueue.drop_future, List.mem_filter] at ht
      rw [ActionQueue.drop_future, hlen]
      exact of_decide_eq_true ht.2

/-- Any completed `perform_actions` call preserves the queue invariant. -/
theorem perform_actions_wf {q : ActionQueue} {batch : List SolverAction}
    {s : Solver} {q1 : ActionQueue} {s1 : Solver}
    (h : q.perform_actions batch s = some (q1, s1)) (hwf : QueueWF q) :
    QueueWF q1 := by
  obtain ⟨hlock, hle, hsp⟩ := hwf
  by_cases hne : batch = []
  · unfold ActionQueue.perform_actions at h
    rw [if_pos hne] at h
    simp only [Option.some.injEq, Prod.mk.injEq] at h
    rw [← h.1]
    exact ⟨hlock, hle, hsp⟩
  · unfold ActionQueue.perform_actions at h
    rw [if_neg hne] at h
    obtain ⟨hn1, hn2, hn3⟩ := normalized_wf hlock hle hsp
    obtain ⟨hw1, hw2, hw3, hw4⟩ := with_savepoint_props hn1 hn2 hn3
    obtain ⟨l1, l2, l3, l4⟩ := run_stack_wf _ _ _ _ _ _ h
      (by rw [hw1, hw2]; exact hn1) (by rw [hw1, hw3]; exact hn2)
    refine ⟨l1, le_of_eq l2, ?_⟩
    intro t ht
    rw [l3] at ht
    exact le_trans (hw4 t ht) l4

/-- Any completed `move_to_index` call preserves the queue invariant. -/
theorem move_to_index_wf {q : ActionQueue} {t : Nat} {s : Solver}
    {q1 : ActionQueue} {s1 : Solver} (h : q.move_to_index t s = some (q1, s1))
    (hwf : QueueWF q) : QueueWF q1 := by
  obtain ⟨hlock, hle, hsp⟩ := hwf
  have hmle : min q.actions.length t ≤ q.actions.length := Nat.min_le_left _ _
  unfold ActionQueue.move_to_index at h
  split at h
  next heq =>
    simp only [Option.some.injEq, Prod.mk.injEq] at h
    rw [← h.1]
    exact ⟨hlock, hle, hsp⟩
  next heq =>
    split at h
    next hlt =>
      simp only [Option.some.injEq, Prod.mk.injEq] at h
      rw [← h.1]
      refine ⟨hlock, ?_, hsp⟩
      simp only
      omega
    next hge =>
      split at h
      next => cases h
      next s2 hred =>
        simp only [Option.some.injEq, Prod.mk.injEq] at h
        rw [← h.1]
        refine ⟨hlock, ?_, hsp⟩
        simp only [ActionQueue.actions_up_to, List.length_drop, List.length_take]
        omega

/-- Any completed `undo` call preserves the queue invariant. -/
theorem undo_wf {q : ActionQueue} {s : Solver} {q1 : ActionQueue} {s1 : Solver}
    (h : q.undo s = some (q1, s1)) (hwf : QueueWF q) : QueueWF q1 := by
  unfold ActionQueue.undo at h
  split at h
  · simp only [Option.some.injEq, Prod.mk.injEq] at h
    rw [← h.1]; exact hwf
  · exact move_to_index_wf h hwf

/-- Any completed `redo` call preserves the queue invariant. -/
theorem redo_wf {q : ActionQueue} {s : Solver} {q1 : ActionQueue} {s1 : Solver}
    (h : q.redo s = some (q1, s1)) (hwf : QueueWF q) : QueueWF q1 := by
  unfold ActionQueue.redo at h
  split at h
  · simp only [Option.some.injEq, Prod.mk.injEq] at h
    rw [← h.1]; exact hwf
  · exact move_to_index_wf h hwf

/-- Any completed `fast_forward` call preserves the queue invariant. -/
theorem fast_forward_wf {q : ActionQueue} {s : Solver} {q1 : ActionQueue}
    {s1 : Solver} (h : q.fast_forward s = some (q1, s1)) (hwf : QueueWF q) :
    QueueWF q1 :=
  move_to_index_wf h hwf

/-- C4: for every non-empty batch of actions performed through a well-formed
coherent action queue, `undo()` followed by `redo()` restores exactly
(bit-identically) the solver state — grid contents and all candidate
domains — that held immediately after the batch; redo replays the recorded
action list verbatim in forward order (the log is unchanged, cascades are
not re-expanded) and returns the cursor to the log end. -/
theorem c4_batch_undo_redo_roundtrip (q : ActionQueue) (s : Solver)
    (batch : List SolverAction) (q1 : ActionQueue) (s1 : Solver)
    (hne : batch ≠ []) (hwf : QueueWF q) (hcoh : Coherent q s)
    (hrun : q.perform_actions batch s = some (q1, s1)) :
    ∃ qu su, q1.undo s1 = some (qu, su) ∧
      ∃ q2, qu.redo su = some (q2, s1) ∧ q2.actions = q1.actions ∧
        q2.action_index = q1.actions.length := by
  obtain ⟨⟨s0, hrep⟩, hidx, hlock, hsp⟩ := perform_actions_spec hrun hne hwf hcoh
  exact undo_redo_of_full_replay q1 s1 s0 hrep hidx hsp

/-- The queue and solver state reached by the witness batch below. -/
def c4w_queue : ActionQueue :=
  ⟨[.add_hint ⟨0, 0⟩ 5], [⟨true, .hint_erase ⟨0, 0⟩ 5⟩], 1, [0]⟩

/-- The solver state after the witness batch below. -/
def c4w_solver : Solver :=
  { solver1 with hints :=
      Function.update solver1.hints ⟨0, 0⟩ (insert 5 (solver1.hints ⟨0, 0⟩)) }

/-- C4 witness: the roundtrip at a concrete one-action batch on a fresh
solver. -/
theorem c4_witness :
    ∃ qu su, c4w_queue.undo c4w_solver = some (qu, su) ∧
      ∃ q2, qu.redo su = some (q2, c4w_solver) ∧ q2.actions = c4w_queue.actions ∧
        q2.action_index = c4w_queue.actions.length :=
  c4_batch_undo_redo_roundtrip empty_queue solver1 [.add_hint ⟨0, 0⟩ 5]
    c4w_queue c4w_solver (by decide) (by decide)
    ⟨solver1, Replay.nil solver1⟩ rfl

/-- C5: a successful `SetPosition(p, v)` performed through a fresh action
queue is fully reversible: a subsequent `undo()` restores the exact prior
solver state — in particular the grid value at `p` and every candidate
domain touched by the cascaded `SetPossibleValues` / `PropagateValue`
actions. -/
theorem c5_set_position_undo_restores (s : Solver) (p : Position) (v : Int)
    (q1 : ActionQueue) (s1 : Solver)
    (hsucc : ∃ r s2, perform (.set_position p v) s = some (r, s2) ∧
      r.succeeded = true)
    (hrun : empty_queue.perform_actions [.set_position p v] s = some (q1, s1)) :
    ∃ qu, q1.undo s1 = some (qu, s) := by
  obtain ⟨r, s2, hp, hsb⟩ := hsucc
  have hrun' : run_stack 4 [SolverAction.set_position p v]
      (⟨[], [], 0, [0]⟩ : ActionQueue) s = some (q1, s1) := hrun
  rw [run_stack] at hrun'
  rw [hp] at hrun'
  dsimp only at hrun'
  rw [if_pos hsb] at hrun'
  have hrep0 : Replay ([SolverAction.set_position p v]) [r] s s2 :=
    Replay.cons hp hsb (Replay.nil s2)
  obtain ⟨l1, l2, l3, l4⟩ := run_stack_wf _ _ _ _ _ _ hrun' (by simp) (by simp)
  have hrep := run_stack_replay _ _ _ _ _ _ s hrun' hrep0
  have hidxpos : 0 < q1.action_index := by
    rw [l2]
    simpa using l4
  have hprev : q1.previous_savepoint = some 0 := by
    unfold ActionQueue.previous_savepoint
    rw [l3]
    simp [hidxpos, list_max]
  obtain ⟨sm, h1t, h2t, hmove⟩ := move_down_of_replay hrep l2 hidxpos
  have hsm : sm = s := by
    have h0 : Replay [] [] s sm := by simpa using h1t
    exact (h0.nil_inv).symm
  refine ⟨{ q1 with action_index := 0 }, ?_⟩
  unfold ActionQueue.undo
  rw [hprev]
  dsimp only
  rw [hmove, hsm]

/-- The grid state after the witness `SetPosition` below. -/
def c5w_s2 : Solver :=
  { solver2 with game := { solver2.game with grid := (solver2.game.grid.set_position ⟨0, 0⟩ 0).1 } }

/-- The solver state after the witness `SetPosition` batch below. -/
def c5w_final : Solver :=
  { c5w_s2 with possible_values :=
      Function.update c5w_s2.possible_values ⟨0, 0⟩ {0} }

/-- The queue recorded by the witness `SetPosition` batch below: the
`PropagateValue` cascade fails (the new value is 0) and is skipped. -/
def c5w_queue : ActionQueue :=
  ⟨[.set_position ⟨0, 0⟩ 0, .set_possible_values ⟨0, 0⟩ {0}],
   [⟨true, .grid_set ⟨0, 0⟩ 1⟩,
    ⟨true, .pv_set ⟨0, 0⟩ (c5w_s2.possible_values ⟨0, 0⟩)⟩],
   2, [0]⟩

/-- C5 witness: undoing a concrete successful `SetPosition` restores the
exact prior solver. -/
theorem c5_witness : ∃ qu, c5w_queue.undo c5w_final = some (qu, solver2) :=
  c5_set_position_undo_restores solver2 ⟨0, 0⟩ 0 c5w_queue c5w_final
    ⟨⟨true, .grid_set ⟨0, 0⟩ 1⟩, c5w_s2, rfl, rfl⟩ rfl

/-- C9: the action queue invariant — one result per executed action, cursor
inside `[0, len(actions)]`, every save point inside `[0, len(actions)]` —
is maintained by every completed `perform_actions`, `undo`, `redo` and
`fast_forward` call. -/
theorem c9_queue_invariants (q : ActionQueue) (s : Solver) (hwf : QueueWF q) :
    (∀ batch q1 s1, q.perform_actions batch s = some (q1, s1) → QueueWF q1) ∧
    (∀ q1 s1, q.undo s = some (q1, s1) → QueueWF q1) ∧
    (∀ q1 s1, q.redo s = some (q1, s1) → QueueWF q1) ∧
    (∀ q1 s1, q.fast_forward s = some (q1, s1) → QueueWF q1) :=
  ⟨fun _ _ _ h => perform_actions_wf h hwf,
   fun _ _ h => undo_wf h hwf,
   fun _ _ h => redo_wf h hwf,
   fun _ _ h => fast_forward_wf h hwf⟩

/-- C9 witness: the invariant holds for the queue produced by a concrete
batch on the empty queue. -/
theorem c9_witness : QueueWF c4w_queue :=
  (c9_queue_invariants empty_queue solver1 (by decide)).1
    [.add_hint ⟨0, 0⟩ 5] c4w_queue c4w_solver rfl

/-- The only strategy phase that writes to the solver is the singleton
collapse: the solver returned by the default strategy is exactly the one
returned by `find_easy_collapse`. -/
theorem default_solver_strategy_fst (s : Solver) :
    (default_solver_strategy s).1 = (find_easy_collapse s).1 := by
  unfold default_solver_strategy
  rcases hfes : find_easy_collapse s with ⟨s1, a⟩
  cases a with
  | some act => rfl
  | none =>
    dsimp only
    cases hsub : (OneUp.all_vision_groups s1.game).findSome?
        (subset_actions_for_group s1) with
    | some acts => rfl
    | none =>
      cases hch : detect_chains (fun p => OneUp.vision s1.game p)
          s1.possible_values s1.game.free_positions with
      | none => rfl
      | some chains => rfl

/-- When some non-fixed position has an empty domain, the popped minimum
entropy is negative, so the singleton-collapse phase sets the solver state
to `HALTED` and emits no action. -/
theorem c1_collapse_halts (s : Solver)
    (h : ∃ p ∈ non_fixed_positions s, s.possible_values p = ∅) :
    find_easy_collapse s = ({ s with state := .HALTED }, none) := by
  obtain ⟨p, hmem, hpv⟩ := h
  obtain ⟨i, hi⟩ := exists_enum_of_mem hmem
  have hx : ((entropy s p, i, p) : Int × Nat × Position) ∈
      (non_fixed_positions s).enum.map (fun ip => (entropy s ip.2, ip.1, ip.2)) :=
    List.mem_map.mpr ⟨(i, p), hi, rfl⟩
  rcases hhm : heap_min ((non_fixed_positions s).enum.map
      (fun ip => (entropy s ip.2, ip.1, ip.2))) with _ | m
  · exfalso
    cases hl : (non_fixed_positions s).enum.map
        (fun ip => (entropy s ip.2, ip.1, ip.2)) with
    | nil => rw [hl] at hx; cases hx
    | cons y ys => rw [hl] at hhm; simp [heap_min] at hhm
  · have hle := heap_min_fst_le hhm _ hx
    have hent : entropy s p = -1 := by simp [entropy, hpv]
    have hneg : m.1 < 0 := by omega
    unfold find_easy_collapse
    rw [hhm]
    dsimp only
    rw [if_pos hneg]

set_option maxRecDepth 8000 in
/-- C1 counterexample: a SOLVING solver with an empty domain at a free
non-fixed position for which the default strategy nevertheless returns a
non-empty action list (a hidden pair found in another vision group), so
the strategy call does not return an empty action list as claimed. -/
theorem c1_counterexample :
    solver_c1.state = SolverState.SOLVING ∧
    (∃ p ∈ non_fixed_positions solver_c1, solver_c1.possible_values p = ∅) ∧
    (default_solver_strategy solver_c1).2 ≠ some [] := by
  refine ⟨rfl, by decide, by decide⟩

/-- C1 amended: for every solver in state SOLVING in which some free
non-fixed position has an empty candidate domain, the default strategy
transitions the solver state to HALTED and the singleton-collapse phase
emits no action; the strategy call as a whole may still return actions
from the later hidden-subset or chain phases. -/
theorem c1_negative_entropy_halts (s : Solver)
    (hstate : s.state = SolverState.SOLVING)
    (h : ∃ p ∈ non_fixed_positions s, s.possible_values p = ∅) :
    (find_easy_collapse s).2 = none ∧
    (find_easy_collapse s).1.state = SolverState.HALTED ∧
    (default_solver_strategy s).1.state = SolverState.HALTED := by
  have hfes := c1_collapse_halts s h
  refine ⟨by rw [hfes], by rw [hfes], ?_⟩
  rw [default_solver_strategy_fst, hfes]

set_option maxRecDepth 8000 in
/-- C1 witness: the amended claim at the concrete contradicted solver. -/
theorem c1_witness :
    (find_easy_collapse solver_c1).2 = none ∧
    (find_easy_collapse solver_c1).1.state = SolverState.HALTED ∧
    (default_solver_strategy solver_c1).1.state = SolverState.HALTED :=
  c1_negative_entropy_halts solver_c1 rfl (by decide)

/-- C2: on the completed 2 by 2 puzzle no strategy yields actions and no
position has exactly two candidates, yet `step_solver` does not halt
normally: the singleton and hidden-subset phases find nothing, and
`detect_chains` raises (`max()` over the empty low-link dict) so the whole
step raises instead of setting the state to HALTED. -/
theorem c2_step_solver_raises :
    step_solver solver2 empty_queue = none ∧
    (find_easy_collapse solver2).2 = none ∧
    (OneUp.all_vision_groups solver2.game).findSome?
      (subset_actions_for_group solver2) = none ∧
    detect_chains (fun p => OneUp.vision solver2.game p)
      solver2.possible_values solver2.game.free_positions = none :=
  ⟨rfl, rfl, rfl, rfl⟩

set_option maxRecDepth 8000 in
/-- C3: on the spec scenario — one vision group of three ambiguous
positions with domains {1,2}, {1,2}, {1,2,3} — hidden-subset search with
round size 2 finds the first two positions, and the default strategy
proposes removing values 1 and 2 from the third position. -/
theorem c3_hidden_pair_scenario :
    detect_groups 2 ({⟨0, 0⟩, ⟨0, 1⟩, ⟨0, 2⟩} : Finset Position)
      solver_c3.possible_values = some {⟨0, 0⟩, ⟨0, 1⟩} ∧
    (default_solver_strategy solver_c3).2 =
      some [.remove_possible_value ⟨0, 2⟩ 1, .remove_possible_value ⟨0, 2⟩ 2] := by
  constructor <;> decide

/-- C6 amended: writes are bounds-checked — `set_position` outside
`[0, size)` returns `False` and leaves every cell unchanged — but reads
are not: `get_position` resolves each index with numpy semantics, reading
the addressed cell for indices in `[0, size)`, wrapping indices in
`[-size, 0)` to `index + size`, and raising `IndexError` otherwise. -/
theorem c6_grid_access (g : Grid) (p : Position) (v : Int) :
    (g.is_in_bounds p = false → g.set_position p v = (g, false)) ∧
    (g.is_in_bounds p = true →
      g.get_position p = some (g.data p.row.toNat p.col.toNat)) ∧
    ((np_index g.grid_size p.row = none ∨ np_index g.grid_size p.col = none) →
      g.get_position p = none) ∧
    (∀ r c, np_index g.grid_size p.row = some r →
      np_index g.grid_size p.col = some c → g.get_position p = some (g.data r c)) := by
  refine ⟨?_, ?_, ?_, ?_⟩
  · intro hib
    unfold Grid.set_position
    rw [hib]
    simp
  · intro hib
    obtain ⟨h1, h2, h3, h4⟩ := of_decide_eq_true hib
    simp [Grid.get_position, np_index, h1, h2, h3, h4]
  · intro hno
    rcases hno with hr | hc
    · simp [Grid.get_position, hr]
    · cases hrow : np_index g.grid_size p.row with
      | none => simp [Grid.get_position, hrow]
      | some r => simp [Grid.get_position, hrow, hc]
  · intro r c hr hc
    simp [Grid.get_position, hr, hc]

/-- C6 counterexample: the position (-1, 0) lies outside `[0, 2)` yet
`get_position` on the 2 by 2 grid does not report a failure — it reads the
storage cell (1, 0) (numpy wrap-around) and returns its value. -/
theorem c6_counterexample :
    g6.is_in_bounds ⟨-1, 0⟩ = false ∧
    g6.get_position ⟨-1, 0⟩ = some (g6.data 1 0) ∧
    g6.get_position ⟨-1, 0⟩ ≠ none := by
  decide

/-- C6 witness: the amended access contract at concrete positions of the
2 by 2 grid. -/
theorem c6_witness :
    g6.set_position ⟨5, 0⟩ 7 = (g6, false) ∧
    g6.get_position ⟨1, 0⟩ = some (g6.data 1 0) ∧
    g6.get_position ⟨5, 0⟩ = none ∧
    g6.get_position ⟨-1, 0⟩ = some (g6.data 1 0) :=
  ⟨(c6_grid_access g6 ⟨5, 0⟩ 7).1 (by decide),
   (c6_grid_access g6 ⟨1, 0⟩ 7).2.1 (by decide),
   (c6_grid_access g6 ⟨5, 0⟩ 7).2.2.1 (Or.inl (by decide)),
   (c6_grid_access g6 ⟨-1, 0⟩ 7).2.2.2 1 0 (by decide) (by decide)⟩

/-- A solver whose hint set at (0,0) already contains 5. -/
def solver_h5 : Solver := { solver1 with hints := fun _ => {5} }

/-- C7: `RemoveHint` of an absent value raises `KeyError` (the source calls
`set.remove` unguarded), instead of returning a failed no-op result;
`AddHint` of a present value does behave as the claim states — it returns
a failed result and leaves the hint set unchanged. -/
theorem c7_remove_hint_raises :
    perform (.remove_hint ⟨0, 0⟩ 5) solver1 = none ∧
    (perform (.add_hint ⟨0, 0⟩ 5) solver_h5).map
      (fun rs => (rs.1.succeeded, sorted_values (rs.2.hints ⟨0, 0⟩))) =
      some (false, [5]) :=
  ⟨rfl, by decide⟩

/-- C8: `complete_chain` on a 2-member chain of mutually visible positions
whose domains are both {3,5} returns `None`: every value occurs twice, the
mismatch set is empty, and no member's non-empty domain equals it. -/
theorem c8_two_member_chain_not_completed (game : OneUp) (p q : Position)
    (pv : Position → Finset Int) (hpq : p ≠ q)
    (hvis : q ∈ OneUp.vision game p)
    (hp : pv p = {3, 5}) (hq : pv q = {3, 5}) :
    complete_chain {p, q} pv = none := by
  have hmem : ∀ x ∈ sorted_list ({p, q} : Finset Position), pv x = {3, 5} := by
    intro x hx
    rcases Finset.mem_insert.mp ((mem_finset_sorted _ _).mp hx) with h | h
    · rw [h, hp]
    · rw [Finset.mem_singleton.mp h, hq]
  have hlen : (sorted_list ({p, q} : Finset Position)).length = 2 := by
    rw [sorted_list, length_finset_sorted]
    exact Finset.card_pair hpq
  have hvals : (sorted_list ({p, q} : Finset Position)).map pv =
      List.replicate 2 ({3, 5} : Finset Int) := by
    rw [List.eq_replicate_iff]
    refine ⟨by simp [hlen], ?_⟩
    intro b hb
    obtain ⟨x, hx, hbx⟩ := List.mem_map.mp hb
    rw [← hbx]
    exact hmem x hx
  have hmis : chain_mismatched_values {p, q} pv = ∅ := by
    unfold chain_mismatched_values chain_value_count
    rw [hvals]
    decide
  have hfind : (sorted_list ({p, q} : Finset Position)).find?
      (fun x => pv x == chain_mismatched_values {p, q} pv) = none := by
    rw [List.find?_eq_none]
    intro x hx
    rw [hmem x hx, hmis]
    decide
  unfold complete_chain
  rw [hfind]

/-- C8 witness: the concrete chain {(0,0), (0,1)} on the 2 by 2 puzzle with
both domains {3,5}. -/
theorem c8_witness :
    complete_chain {(⟨0, 0⟩ : Position), ⟨0, 1⟩}
      (fun _ => ({3, 5} : Finset Int)) = none :=
  c8_two_member_chain_not_completed game2 ⟨0, 0⟩ ⟨0, 1⟩ (fun _ => {3, 5})
    (by decide) (by decide) rfl rfl

/-- A symmetric position-to-positions map. -/
def sym_vision (f : Position → Finset Position) : Prop :=
  ∀ p q, q ∈ f p ↔ p ∈ f q

/-- Each seen-loop step adds a whole group in both directions, so the
accumulated vision map stays symmetric. -/
theorem build_vision_symm (grp : Position → Finset Position) :
    ∀ (ps : List Position) (acc : Finset Position × (Position → Finset Position)),
      sym_vision acc.2 → sym_vision (build_vision grp ps acc).2 := by
  intro ps
  induction ps with
  | nil => intro acc h; exact h
  | cons p rest ih =>
    intro acc h
    unfold build_vision
    split
    · exact ih acc h
    · apply ih
      intro x y
      dsimp only
      by_cases hx : x ∈ grp p <;> by_cases hy : y ∈ grp p <;>
        simp [hx, hy, Finset.mem_union, h x y]

/-- C10: visibility is symmetric — for free positions `p` and `q`, `q` is in
`vision[p]` iff `p` is in `vision[q]`, and the same symmetry holds for
`horizontal_vision` and `vertical_vision` separately. -/
theorem c10_vision_symmetric (game : OneUp) :
    (∀ p q, p ∈ game.free_positions → q ∈ game.free_positions →
      (q ∈ OneUp.vision game p ↔ p ∈ OneUp.vision game q)) ∧
    (∀ p q, q ∈ game.horizontal_vision p ↔ p ∈ game.horizontal_vision q) ∧
    (∀ p q, q ∈ game.vertical_vision p ↔ p ∈ game.vertical_vision q) := by
  have hh : sym_vision game.horizontal_vision := by
    unfold OneUp.horizontal_vision
    exact build_vision_symm _ _ _ (fun p q => by simp)
  have hv : sym_vision game.vertical_vision := by
    unfold OneUp.vertical_vision
    exact build_vision_symm _ _ _ (fun p q => by simp)
  refine ⟨?_, hh, hv⟩
  intro p q hp hq
  unfold OneUp.vision
  simp only [Finset.mem_union]
  constructor
  · rintro (h | h)
    · exact Or.inl ((hv p q).mp h)
    · exact Or.inr ((hh p q).mp h)
  · rintro (h | h)
    · exact Or.inl ((hv q p).mp h)
    · exact Or.inr ((hh q p).mp h)

/-- C10 witness: symmetry of `vision` at two concrete free positions of the
2 by 2 puzzle. -/
theorem c10_witness :
    ((⟨0, 1⟩ : Position) ∈ OneUp.vision game2 ⟨0, 0⟩ ↔
      (⟨0, 0⟩ : Position) ∈ OneUp.vision game2 ⟨0, 1⟩) :=
  (c10_vision_symmetric game2).1 ⟨0, 0⟩ ⟨0, 1⟩ (by decide) (by decide)
